import Mathlib

/-!
Verification development for the PointContrast pair-construction pipeline
(`pretrain/pointcontrast/lib/ddp_data_loaders.py`): transform sampling,
voxel-cap subsampling, radius-based correspondence matching, the per-item
builder tail, and the batch collator.

Points are modelled with exact rational coordinates; the KD-tree radius
query is modelled as the set of target indices whose Euclidean distance to
the query point is at most the radius (inclusive boundary), enumerated in
target-array order.
-/

/-- A 3-D point with rational coordinates. -/
abbrev Pt3 : Type := ℚ × ℚ × ℚ

/-- Default point used for out-of-range reads. -/
def d0 : Pt3 := (0, 0, 0)

/-- A 4×4 homogeneous transform matrix. -/
abbrev Mat4 : Type := Matrix (Fin 4) (Fin 4) ℚ

/-- Squared Euclidean distance between two points. -/
def sqDist (p q : Pt3) : ℚ :=
  (p.1 - q.1) ^ 2 + (p.2.1 - q.2.1) ^ 2 + (p.2.2 - q.2.2) ^ 2

/-- Applies the affine part of a 4×4 transform to a point: rows 0..2 of the
matrix act on the homogeneous vector (x, y, z, 1).  This mirrors
`apply_transform` (lines 187-191), `pts @ R.T + T`, which reads only the
top 3×4 block. -/
def applyTransform (T : Mat4) (p : Pt3) : Pt3 :=
  (T 0 0 * p.1 + T 0 1 * p.2.1 + T 0 2 * p.2.2 + T 0 3,
   T 1 0 * p.1 + T 1 1 * p.2.1 + T 1 2 * p.2.2 + T 1 3,
   T 2 0 * p.1 + T 2 1 * p.2.1 + T 2 2 * p.2.2 + T 2 3)

/-- Models the KD-tree radius query `search_radius_vector_3d(point, radius)`
(line 44): indices of the target points within Euclidean distance `r`
(inclusive boundary) of `p`, in target-array order. -/
def search_radius (target : List Pt3) (p : Pt3) (r : ℚ) : List Nat :=
  (List.range target.length).filter fun j => sqDist p (target.getD j d0) ≤ r ^ 2

/-- The optional per-source cap `idx = idx[:K]` (lines 45-46). -/
def capK : Option Nat → List Nat → List Nat
  | some k, l => l.take k
  | none, l => l

/-- Shallow embedding of `get_matching_indices` (lines 36-49): transform each
source point, query the target KD-tree within the search radius, optionally
keep the first `K` query results, and append one `(i, j)` pair per neighbor
in source-array order. -/
def get_matching_indices (source target : List Pt3) (trans : Mat4) (r : ℚ)
    (K : Option Nat) : List (Nat × Nat) :=
  (List.range source.length).foldl
    (fun acc i =>
      acc ++ (capK K (search_radius target (applyTransform trans (source.getD i d0)) r)).map
        fun j => (i, j))
    []

lemma foldl_append_eq_flatMap (f : α → List β) (l : List α) (acc : List β) :
    l.foldl (fun a x => a ++ f x) acc = acc ++ l.flatMap f := by
  induction l generalizing acc with
  | nil => simp
  | cons x xs ih => simp [ih, List.flatMap_cons]

/-- Structural form of the matcher: one block of pairs per source index. -/
lemma gmi_eq_flatMap (s t : List Pt3) (T : Mat4) (r : ℚ) (K : Option Nat) :
    get_matching_indices s t T r K =
      (List.range s.length).flatMap fun i =>
        (capK K (search_radius t (applyTransform T (s.getD i d0)) r)).map fun j => (i, j) := by
  unfold get_matching_indices
  rw [foldl_append_eq_flatMap]
  simp

lemma mem_search_radius (t : List Pt3) (p : Pt3) (r : ℚ) (j : Nat) :
    j ∈ search_radius t p r ↔ j < t.length ∧ sqDist p (t.getD j d0) ≤ r ^ 2 := by
  simp [search_radius, List.mem_filter, List.mem_range]

/-- Membership characterization of the uncapped matcher. -/
lemma gmi_mem_iff (s t : List Pt3) (T : Mat4) (r : ℚ) (i j : Nat) :
    (i, j) ∈ get_matching_indices s t T r none ↔
      i < s.length ∧ j < t.length ∧
        sqDist (applyTransform T (s.getD i d0)) (t.getD j d0) ≤ r ^ 2 := by
  rw [gmi_eq_flatMap]
  simp only [List.mem_flatMap, List.mem_range, List.mem_map, capK]
  constructor
  · rintro ⟨i', hi', j', hj', hpair⟩
    obtain ⟨rfl, rfl⟩ : i' = i ∧ j' = j := Prod.mk.injEq .. ▸ hpair
    rcases (mem_search_radius t _ r j').1 hj' with ⟨hjlen, hd⟩
    exact ⟨hi', hjlen, hd⟩
  · rintro ⟨hi, hj, hd⟩
    exact ⟨i, hi, j, (mem_search_radius t _ r j).2 ⟨hj, hd⟩, rfl⟩

lemma search_radius_nodup (t : List Pt3) (p : Pt3) (r : ℚ) :
    (search_radius t p r).Nodup :=
  (List.nodup_range _).filter _

lemma mem_blocks_fst_lt (n : Nat) (g : Nat → List Nat) (a : Nat × Nat)
    (ha : a ∈ (List.range n).flatMap fun i => (g i).map fun j => (i, j)) : a.1 < n := by
  rcases List.mem_flatMap.1 ha with ⟨i, hi, hmem⟩
  rcases List.mem_map.1 hmem with ⟨j, _, rfl⟩
  exact List.mem_range.1 hi

lemma nodup_flatMap_blocks (n : Nat) (g : Nat → List Nat) (hg : ∀ i, (g i).Nodup) :
    ((List.range n).flatMap fun i => (g i).map fun j => (i, j)).Nodup := by
  induction n with
  | zero => simp
  | succ m ih =>
    rw [List.range_succ, List.flatMap_append]
    refine List.Nodup.append ih ?_ ?_
    · simpa using (hg m).map (fun a b h => (Prod.mk.injEq .. ▸ h).2)
    · intro a ha hb
      have h1 : a.1 < m := mem_blocks_fst_lt m g a ha
      have h2 : a.1 = m := by
        simp only [List.flatMap_cons, List.flatMap_nil, List.append_nil] at hb
        rcases List.mem_map.1 hb with ⟨j, _, rfl⟩
        rfl
      omega

lemma pairwise_flatMap_blocks (n : Nat) (g : Nat → List Nat) :
    ((List.range n).flatMap fun i => (g i).map fun j => (i, j)).Pairwise
      fun a b => a.1 ≤ b.1 := by
  induction n with
  | zero => simp
  | succ m ih =>
    rw [List.range_succ, List.flatMap_append]
    refine List.pairwise_append.2 ⟨ih, ?_, ?_⟩
    · refine List.pairwise_of_forall_mem_list ?_
      intro a ha b hb
      simp only [List.flatMap_cons, List.flatMap_nil, List.append_nil] at ha hb
      rcases List.mem_map.1 ha with ⟨j, _, rfl⟩
      rcases List.mem_map.1 hb with ⟨j', _, rfl⟩
      exact Nat.le_refl m
    · intro a ha b hb
      have h1 : a.1 < m := mem_blocks_fst_lt m g a ha
      simp only [List.flatMap_cons, List.flatMap_nil, List.append_nil] at hb
      rcases List.mem_map.1 hb with ⟨j, _, rfl⟩
      exact Nat.le_of_lt h1

lemma filter_flatMap_list (l : List α) (g : α → List β) (p : β → Bool) :
    (l.flatMap g).filter p = l.flatMap fun x => (g x).filter p := by
  induction l with
  | nil => rfl
  | cons x xs ih => simp [List.flatMap_cons, List.filter_append, ih]

lemma flatMap_range_single (n i : Nat) (f : Nat → List β)
    (hf : ∀ i', i' ≠ i → f i' = []) :
    (List.range n).flatMap f = if i < n then f i else [] := by
  induction n with
  | zero => simp
  | succ m ih =>
    rw [List.range_succ, List.flatMap_append]
    simp only [List.flatMap_cons, List.flatMap_nil, List.append_nil]
    by_cases hmi : m = i
    · subst hmi
      rw [ih, if_neg (Nat.lt_irrefl m), if_pos (Nat.lt_succ_self m)]
      simp
    · rw [hf m hmi, List.append_nil, ih]
      by_cases hi : i < m
      · rw [if_pos hi, if_pos (Nat.lt_succ_of_lt hi)]
      · have h2 : ¬ i < m + 1 := by omega
        rw [if_neg hi, if_neg h2]

lemma gmi_nodup (s t : List Pt3) (T : Mat4) (r : ℚ) :
    (get_matching_indices s t T r none).Nodup := by
  rw [gmi_eq_flatMap]
  simp only [capK]
  exact nodup_flatMap_blocks s.length _ fun i => search_radius_nodup t _ r

lemma gmi_pairwise (s t : List Pt3) (T : Mat4) (r : ℚ) :
    (get_matching_indices s t T r none).Pairwise fun a b => a.1 ≤ b.1 := by
  rw [gmi_eq_flatMap]
  simp only [capK]
  exact pairwise_flatMap_blocks s.length _

lemma gmi_cap_filter (s t : List Pt3) (T : Mat4) (r : ℚ) (k i : Nat) :
    (get_matching_indices s t T r (some k)).filter (fun pr => pr.1 == i)
      = ((get_matching_indices s t T r none).filter (fun pr => pr.1 == i)).take k := by
  rw [gmi_eq_flatMap, gmi_eq_flatMap, filter_flatMap_list, filter_flatMap_list]
  have key : ∀ K : Option Nat,
      ((List.range s.length).flatMap fun i' =>
        ((capK K (search_radius t (applyTransform T (s.getD i' d0)) r)).map
          fun j => (i', j)).filter fun pr => pr.1 == i)
      = if i < s.length then
          (capK K (search_radius t (applyTransform T (s.getD i d0)) r)).map fun j => (i, j)
        else [] := by
    intro K
    rw [flatMap_range_single s.length i _ ?hne]
    case hne =>
      intro i' hne
      rw [List.filter_map]
      have hc : ((fun pr : Nat × Nat => pr.1 == i) ∘ fun j => (i', j)) =
          fun _ => (i' == i) := rfl
      rw [hc]
      simp [hne]
    split
    · rw [List.filter_map]
      have hc : ((fun pr : Nat × Nat => pr.1 == i) ∘ fun j => (i, j)) =
          fun _ => (i == i) := rfl
      rw [hc]
      simp
    · rfl
  rw [key, key]
  split
  · simp [capK, List.map_take]
  · simp

lemma length_filter_mono (l : List α) (p q : α → Bool)
    (h : ∀ a ∈ l, p a = true → q a = true) :
    (l.filter p).length ≤ (l.filter q).length := by
  induction l with
  | nil => simp
  | cons x xs ih =>
    have hx := h x (List.mem_cons_self x xs)
    have hxs := ih fun a ha => h a (List.mem_cons_of_mem x ha)
    simp only [List.filter_cons]
    by_cases hp : p x = true
    · rw [if_pos hp, if_pos (hx hp)]
      simpa using hxs
    · rw [if_neg hp]
      split
      · exact Nat.le_succ_of_le hxs
      · exact hxs

lemma flatMap_length_mono (l : List α) (f g : α → List β)
    (h : ∀ a ∈ l, (f a).length ≤ (g a).length) :
    (l.flatMap f).length ≤ (l.flatMap g).length := by
  induction l with
  | nil => simp
  | cons x xs ih =>
    simp only [List.flatMap_cons, List.length_append]
    exact Nat.add_le_add (h x (List.mem_cons_self x xs))
      (ih fun a ha => h a (List.mem_cons_of_mem x ha))

lemma gmi_mono (s t : List Pt3) (T : Mat4) (r : ℚ) :
    (get_matching_indices s t T r none).length ≤
      (get_matching_indices s t T (2 * r) none).length := by
  rw [gmi_eq_flatMap, gmi_eq_flatMap]
  apply flatMap_length_mono
  intro i _
  simp only [capK, search_radius, List.length_map]
  apply length_filter_mono
  intro j _ hj
  have h1 : sqDist (applyTransform T (s.getD i d0)) (t.getD j d0) ≤ r ^ 2 :=
    of_decide_eq_true hj
  exact decide_eq_true (by nlinarith [sq_nonneg r])

lemma gmi_empty_target (s : List Pt3) (T : Mat4) (r : ℚ) (K : Option Nat) :
    get_matching_indices s [] T r K = [] := by
  rw [gmi_eq_flatMap]
  cases K <;> simp [search_radius, capK]

lemma applyTransform_one (p : Pt3) : applyTransform 1 p = p := by
  obtain ⟨x, y, z⟩ := p
  simp [applyTransform, Matrix.one_apply]

lemma gmi_self_mem (s : List Pt3) (r : ℚ) (hr : 0 < r) (i : Nat) (hi : i < s.length) :
    (i, i) ∈ get_matching_indices s s 1 r none := by
  rw [gmi_mem_iff]
  refine ⟨hi, hi, ?_⟩
  rw [applyTransform_one]
  have hz : sqDist (s.getD i d0) (s.getD i d0) = 0 := by simp [sqDist]
  rw [hz]
  positivity

/-- Claim C5: for every source set, target set, transform and radius, the
matcher returns exactly one (source_index, target_index) pair per target
point within the (inclusive) search radius of each transformed source point
(membership characterization plus no duplicates), grouped by source index in
source-array order; and with a per-source cap K, the pairs kept for each
source point are exactly the first K results of that point's radius query. -/
theorem matcher_radius_query_c5 (s t : List Pt3) (T : Mat4) (r : ℚ) :
    (∀ i j, ((i, j) ∈ get_matching_indices s t T r none ↔
        i < s.length ∧ j < t.length ∧
          sqDist (applyTransform T (s.getD i d0)) (t.getD j d0) ≤ r ^ 2))
    ∧ (get_matching_indices s t T r none).Nodup
    ∧ (get_matching_indices s t T r none).Pairwise (fun a b => a.1 ≤ b.1)
    ∧ ∀ k i, (get_matching_indices s t T r (some k)).filter (fun pr => pr.1 == i)
        = ((get_matching_indices s t T r none).filter (fun pr => pr.1 == i)).take k :=
  ⟨fun i j => gmi_mem_iff s t T r i j, gmi_nodup s t T r, gmi_pairwise s t T r,
   fun k i => gmi_cap_filter s t T r k i⟩

/-- Claim C6: with no per-source cap, doubling the search radius never
decreases the number of returned pairs; an empty target set yields an empty
correspondence set; and with the identity transform, source equal to target,
and positive radius, every self-match pair (i, i) is present. -/
theorem matcher_algebraic_c6 (s t : List Pt3) (T : Mat4) (r : ℚ) :
    (get_matching_indices s t T r none).length ≤
        (get_matching_indices s t T (2 * r) none).length
    ∧ get_matching_indices s [] T r none = []
    ∧ (0 < r → ∀ i, i < s.length → (i, i) ∈ get_matching_indices s s 1 r none) :=
  ⟨gmi_mono s t T r, gmi_empty_target s T r none,
   fun hr i hi => gmi_self_mem s r hr i hi⟩

/-- Witness for C6 at a concrete input: one-point cloud, radius 1. -/
theorem matcher_algebraic_c6_witness :
    (0 : ℚ) < 1 ∧ 0 < [d0].length ∧
      ((0, 0) : Nat × Nat) ∈ get_matching_indices [d0] [d0] 1 1 none :=
  ⟨by norm_num, by decide,
   (matcher_algebraic_c6 [d0] [d0] 1 1).2.2 (by norm_num) 0 (by decide)⟩

/-- State of the process-wide numpy random generator, modelled as a word
that the draws consume and advance. -/
abbrev RngState : Type := Nat

/-- Models `np.random.seed(s)` (lines 235, 244): the generator state is
fully determined by the seed. -/
def npSeed (s : Nat) : RngState := s

/-- One step of the modelled generator stream (a linear congruential
update). -/
def lcg (s : Nat) : Nat := (1664525 * s + 1013904223) % 4294967296

/-- Models `np.random.choice(l, k, replace=False)`: repeatedly pick a
state-determined position from the remaining candidates, remove it, and
advance the generator; a deterministic function of the generator state and
the candidate list. -/
def npChoiceAux : Nat → RngState → List Nat → List Nat × RngState
  | 0, s, _ => ([], s)
  | _ + 1, s, [] => ([], s)
  | k + 1, s, x :: xs =>
      let i := s % (x :: xs).length
      let c := (x :: xs).getD i 0
      let rest := npChoiceAux k (lcg s) ((x :: xs).eraseIdx i)
      (c :: rest.1, rest.2)

/-- Draws `k` candidates without replacement from `l` using state `s`. -/
def npChoice (s : RngState) (l : List Nat) (k : Nat) : List Nat × RngState :=
  npChoiceAux k s l

/-- The fixed point budget `sample_pts = 40000` (line 233). -/
def sample_pts : Nat := 40000

/-- The quantization size-cap step (lines 234-236 and 243-245): when the
distinct-voxel candidate indices exceed `sample_pts`, reseed the global
generator to 42 and subsample without replacement down to `sample_pts`;
otherwise the candidates pass through untouched. -/
def capSubsample (s : RngState) (sel : List Nat) : List Nat × RngState :=
  if sample_pts < sel.length then npChoice (npSeed 42) sel sample_pts
  else (sel, s)

lemma perm_getD_cons_eraseIdx (l : List Nat) (i : Nat) (h : i < l.length) :
    l.Perm (l.getD i 0 :: l.eraseIdx i) := by
  have hD : l.getD i 0 = l[i] := by
    rw [List.getD_eq_getElem?_getD, List.getElem?_eq_getElem h]
    rfl
  have hget : l.getD i 0 :: l.drop (i + 1) = l.drop i := by
    rw [hD]
    exact List.getElem_cons_drop l i h
  have h1 : l.take i ++ (l.getD i 0 :: l.drop (i + 1)) = l := by
    rw [hget, List.take_append_drop]
  have h2 : (l.take i ++ (l.getD i 0 :: l.drop (i + 1))).Perm
      (l.getD i 0 :: (l.take i ++ l.drop (i + 1))) := List.perm_middle
  rw [List.eraseIdx_eq_take_drop_succ]
  have h0 : l.Perm (l.take i ++ (l.getD i 0 :: l.drop (i + 1))) := by rw [h1]
  exact h0.trans h2

lemma npChoiceAux_length (k : Nat) (s : RngState) (l : List Nat) (h : k ≤ l.length) :
    (npChoiceAux k s l).1.length = k := by
  induction k generalizing s l with
  | zero => rfl
  | succ m ih =>
    cases l with
    | nil => simp at h
    | cons x xs =>
      have hi : s % (x :: xs).length < (x :: xs).length :=
        Nat.mod_lt _ (by simp)
      have hp := perm_getD_cons_eraseIdx (x :: xs) (s % (x :: xs).length) hi
      have hlen : ((x :: xs).eraseIdx (s % (x :: xs).length)).length = xs.length := by
        have := hp.length_eq
        simp only [List.length_cons] at this ⊢
        omega
      simp only [List.length_cons] at hlen h
      simp only [npChoiceAux, List.length_cons]
      rw [ih (lcg s) _ (by rw [hlen]; omega)]

lemma npChoiceAux_subset (k : Nat) (s : RngState) (l : List Nat) :
    ∀ a ∈ (npChoiceAux k s l).1, a ∈ l := by
  induction k generalizing s l with
  | zero => simp [npChoiceAux]
  | succ m ih =>
    cases l with
    | nil => simp [npChoiceAux]
    | cons x xs =>
      intro a ha
      have hi : s % (x :: xs).length < (x :: xs).length :=
        Nat.mod_lt _ (by simp)
      have hp := perm_getD_cons_eraseIdx (x :: xs) (s % (x :: xs).length) hi
      simp only [npChoiceAux, List.mem_cons] at ha
      rcases ha with rfl | ha
      · exact hp.mem_iff.2 (List.mem_cons_self _ _)
      · exact hp.mem_iff.2 (List.mem_cons_of_mem _ (ih (lcg s) _ a ha))

lemma npChoiceAux_nodup (k : Nat) (s : RngState) (l : List Nat) (h : l.Nodup) :
    (npChoiceAux k s l).1.Nodup := by
  induction k generalizing s l with
  | zero => exact List.nodup_nil
  | succ m ih =>
    cases l with
    | nil => exact List.nodup_nil
    | cons x xs =>
      have hi : s % (x :: xs).length < (x :: xs).length :=
        Nat.mod_lt _ (by simp)
      have hp := perm_getD_cons_eraseIdx (x :: xs) (s % (x :: xs).length) hi
      have hce : ((x :: xs).getD (s % (x :: xs).length) 0 ::
          (x :: xs).eraseIdx (s % (x :: xs).length)).Nodup := hp.nodup_iff.1 h
      rcases List.nodup_cons.1 hce with ⟨hc, he⟩
      simp only [npChoiceAux]
      refine List.nodup_cons.2 ⟨fun hmem => hc ?_, ih (lcg s) _ he⟩
      exact npChoiceAux_subset m (lcg s) _ _ hmem

/-- Claim C3: when the distinct-voxel candidate indices exceed the fixed
budget of 40000, the cap step returns exactly 40000 indices drawn without
replacement from the candidates (all distinct, each a valid index below the
original point count); otherwise the candidate set passes through
unchanged. -/
theorem quantize_cap_c3 (s : RngState) (sel : List Nat) (n : Nat)
    (hnd : sel.Nodup) (hb : ∀ i ∈ sel, i < n) :
    (sample_pts < sel.length →
      ((capSubsample s sel).1.length = sample_pts ∧
       (capSubsample s sel).1.Nodup ∧
       ∀ i ∈ (capSubsample s sel).1, i ∈ sel ∧ i < n))
    ∧ (sel.length ≤ sample_pts → (capSubsample s sel).1 = sel) := by
  constructor
  · intro hlt
    rw [capSubsample, if_pos hlt]
    refine ⟨npChoiceAux_length _ _ _ (Nat.le_of_lt hlt), npChoiceAux_nodup _ _ _ hnd, ?_⟩
    intro i hi
    have hmem : i ∈ sel := npChoiceAux_subset _ _ _ i hi
    exact ⟨hmem, hb i hmem⟩
  · intro hle
    rw [capSubsample, if_neg (by omega)]

/-- Witness for C3: 40001 distinct candidates, all below 40001. -/
theorem quantize_cap_c3_witness :
    (List.range 40001).Nodup ∧ (∀ i ∈ List.range 40001, i < 40001) ∧
      (sample_pts < (List.range 40001).length →
        ((capSubsample 7 (List.range 40001)).1.length = sample_pts ∧
         (capSubsample 7 (List.range 40001)).1.Nodup ∧
         ∀ i ∈ (capSubsample 7 (List.range 40001)).1,
           i ∈ List.range 40001 ∧ i < 40001)) :=
  ⟨List.nodup_range 40001, fun _ hi => List.mem_range.1 hi,
   (quantize_cap_c3 7 (List.range 40001) 40001 (List.nodup_range 40001)
     (fun _ hi => List.mem_range.1 hi)).1⟩

/-- Claim C4: the subsampling step reseeds the generator to the fixed seed
immediately before choosing, so its result is independent of the incoming
generator state; in particular the two clouds' caps within one item draw
identically: running the step again from the state the first run left
behind returns the same subsampled index set. -/
theorem subsample_deterministic_c4 (s1 s2 : RngState) (sel : List Nat) :
    (capSubsample s1 sel).1 = (capSubsample s2 sel).1
    ∧ (capSubsample (capSubsample s1 sel).2 sel).1 = (capSubsample s1 sel).1 := by
  constructor
  · unfold capSubsample
    split <;> rfl
  · unfold capSubsample
    split <;> rfl

/-- Determinant of a 3×3 matrix given as a function. -/
def det3 (M : Fin 3 → Fin 3 → ℚ) : ℚ :=
  M 0 0 * (M 1 1 * M 2 2 - M 1 2 * M 2 1)
  - M 0 1 * (M 1 0 * M 2 2 - M 1 2 * M 2 0)
  + M 0 2 * (M 1 0 * M 2 1 - M 1 1 * M 2 0)

/-- Cofactor of a 4×4 matrix at position (i, j). -/
def cof (A : Mat4) (i j : Fin 4) : ℚ :=
  (-1 : ℚ) ^ (i.val + j.val) * det3 fun r c => A (i.succAbove r) (j.succAbove c)

/-- Determinant of a 4×4 matrix by cofactor expansion along row 0. -/
def det4 (A : Mat4) : ℚ :=
  A 0 0 * cof A 0 0 + A 0 1 * cof A 0 1 + A 0 2 * cof A 0 2 + A 0 3 * cof A 0 3

/-- Models `np.linalg.inv` (line 220) on 4×4 matrices via the adjugate
(cofactor) formula: entry (i, j) is the (j, i) cofactor divided by the
determinant. -/
def inv4 (A : Mat4) : Mat4 :=
  Matrix.of fun i j => (det4 A)⁻¹ * cof A j i

/-- The rotation-augmentation branch of `__getitem__` (lines 217-225): when
random rotation is enabled, apply the two independently sampled per-cloud
transforms to their clouds and return the relative transform
`T1 @ np.linalg.inv(T0)`; when disabled, return the clouds untouched with
the 4×4 identity. -/
def rotationBranch (random_rotation : Bool) (T0 T1 : Mat4)
    (xyz0 xyz1 : List Pt3) : List Pt3 × List Pt3 × Mat4 :=
  if random_rotation then
    (xyz0.map (applyTransform T0), xyz1.map (applyTransform T1), T1 * inv4 T0)
  else
    (xyz0, xyz1, 1)

/-- Claim C7: with random rotation enabled, the returned relative transform
is `T1 * inv4 T0`, the map that undoes cloud 0's pose transform and applies
cloud 1's (so composing it with T0 recovers T1), while each cloud is moved
by its own sampled transform; with rotation disabled the relative transform
is the 4×4 identity. -/
theorem relative_transform_c7 (T0 T1 : Mat4) (xyz0 xyz1 : List Pt3)
    (hinv : inv4 T0 * T0 = 1) :
    (rotationBranch true T0 T1 xyz0 xyz1).2.2 = T1 * inv4 T0
    ∧ (rotationBranch true T0 T1 xyz0 xyz1).2.2 * T0 = T1
    ∧ (rotationBranch true T0 T1 xyz0 xyz1).1 = xyz0.map (applyTransform T0)
    ∧ (rotationBranch true T0 T1 xyz0 xyz1).2.1 = xyz1.map (applyTransform T1)
    ∧ (rotationBranch false T0 T1 xyz0 xyz1).2.2 = 1 := by
  refine ⟨rfl, ?_, rfl, rfl, rfl⟩
  show T1 * inv4 T0 * T0 = T1
  rw [Matrix.mul_assoc, hinv, Matrix.mul_one]

set_option maxHeartbeats 1000000 in
lemma inv4_one : inv4 (1 : Mat4) = 1 := by
  ext i j
  fin_cases i <;> fin_cases j <;>
    simp +decide [inv4, det4, cof, det3, Matrix.one_apply, Fin.succAbove, Fin.lt_def]

/-- Witness for C7 at the identity transforms. -/
theorem relative_transform_c7_witness :
    inv4 (1 : Mat4) * 1 = 1 ∧
      (rotationBranch true 1 1 ([] : List Pt3) ([] : List Pt3)).2.2 * 1 = 1 := by
  have h : inv4 (1 : Mat4) * 1 = 1 := by rw [inv4_one, Matrix.one_mul]
  exact ⟨h, (relative_transform_c7 1 1 [] [] h).2.1⟩

/-- A jitter-style transform acting on a (voxel_coords, features) pair. -/
abbrev TransformFn : Type := List Pt3 × List Pt3 → List Pt3 × List Pt3

/-- Numpy fancy indexing `arr[sel]`: gather the rows of `arr` at the listed
indices. -/
def select (l : List Pt3) (sel : List Nat) : List Pt3 :=
  sel.filterMap fun i => l[i]?

/-- The feature-assembly tail of `__getitem__` for one cloud (lines
263-285): build placeholder unit features, take the voxel coordinates
`xyz_voxel[sel]`, run the configured jitter transform (if any) on the
(coords, feats) pair, then overwrite the features with the raw
post-augmentation coordinates `xyz[sel]`.  Returns the final
(coords, feats) pair for the cloud. -/
def itemFeatureTail (transform : Option TransformFn) (xyz xyzVoxel : List Pt3)
    (sel : List Nat) : List Pt3 × List Pt3 :=
  let feats := List.replicate sel.length ((1 : ℚ), (1 : ℚ), (1 : ℚ))
  let coords := select xyzVoxel sel
  let cf := match transform with
    | some tr => tr (coords, feats)
    | none => (coords, feats)
  (cf.1, select xyz sel)

/-- Claim C8: the returned feature array is always the post-augmentation
point coordinates re-indexed by the quantization selection, assigned after
the jitter transform has run; hence the returned features are identical to
those produced with no jitter transform configured, for every transform. -/
theorem feats_override_c8 (transform : Option TransformFn)
    (xyz xyzVoxel : List Pt3) (sel : List Nat) :
    (itemFeatureTail transform xyz xyzVoxel sel).2 = select xyz sel
    ∧ ∀ tr : TransformFn,
        (itemFeatureTail (some tr) xyz xyzVoxel sel).2 =
          (itemFeatureTail none xyz xyzVoxel sel).2 := by
  constructor
  · cases transform <;> rfl
  · intro tr
    rfl

/-- Models `ScanNetMatchPairDataset.__init__` (lines 170-181): given the
configured phase and the manifest lines, either parse the manifest into
file pairs (phase "train") or fail with NotImplemented.  The second
component counts how many files were read (the manifest itself). -/
def scanNetInitFiles (phase : String) (manifest : List String) :
    Except String (List (String × String)) × Nat :=
  if phase = "train" then
    (Except.ok (manifest.map fun x =>
      ((x.trim.splitOn " ").getD 0 "", (x.trim.splitOn " ").getD 1 "")), 1)
  else
    (Except.error "NotImplemented", 0)

/-- Claim C9: for every phase other than "train", dataset construction
fails immediately with no file read at all (so before any item is
processed), and construction never returns successfully for an unsupported
phase. -/
theorem phase_guard_c9 (phase : String) (manifest : List String)
    (hp : phase ≠ "train") :
    scanNetInitFiles phase manifest = (Except.error "NotImplemented", 0)
    ∧ ∀ fs n, scanNetInitFiles phase manifest ≠ (Except.ok fs, n) := by
  have h : scanNetInitFiles phase manifest = (Except.error "NotImplemented", 0) := by
    rw [scanNetInitFiles, if_neg hp]
  refine ⟨h, ?_⟩
  intro fs n hc
  rw [h] at hc
  exact Except.noConfusion (Prod.mk.injEq .. ▸ hc).1

/-- Witness for C9 at the concrete phase "val". -/
theorem phase_guard_c9_witness :
    "val" ≠ "train" ∧
      scanNetInitFiles "val" [] = (Except.error "NotImplemented", 0) :=
  ⟨by decide, (phase_guard_c9 "val" [] (by decide)).1⟩

/-- An element of a Python correspondence list: normally an index pair, but
the empty-list fixup appends bare integer scalars. -/
inductive PyElem where
  | int (n : Nat)
  | pair (p : Nat × Nat)
deriving DecidableEq

/-- One sample produced by `__getitem__` (line 285), as consumed by the
collator. -/
structure PairSample where
  xyz0 : List Pt3
  xyz1 : List Pt3
  coords0 : List Pt3
  coords1 : List Pt3
  feats0 : List Pt3
  feats1 : List Pt3
  matching_inds : List PyElem
  trans : Mat4

instance : Inhabited PairSample :=
  ⟨⟨[], [], [], [], [], [], [], 1⟩⟩

/-- The batch record returned by the collator (lines 102-112). -/
structure Batch where
  pcd0 : List Pt3
  pcd1 : List Pt3
  sinput0_C : List (Nat × Pt3)
  sinput0_F : List Pt3
  sinput1_C : List (Nat × Pt3)
  sinput1_F : List Pt3
  correspondences : List (Nat × Nat)
  T_gt : List Mat4
  len_batch : List (Nat × Nat)

/-- Models `np.array(matching_inds) + curr_start_inds` (line 86): a list of
pairs becomes a row per pair with the two offsets added columnwise, while
the flat two-scalar list produced by the empty-list fixup broadcasts
against the (1, 2) offset row into a single offset row. -/
def npBroadcastAdd (l : List PyElem) (off : Nat × Nat) : List (Nat × Nat) :=
  match l with
  | [PyElem.int a, PyElem.int b] => [(a + off.1, b + off.2)]
  | _ => l.filterMap fun e =>
      match e with
      | PyElem.pair p => some (p.1 + off.1, p.2 + off.2)
      | PyElem.int _ => none

/-- The index pairs held in a correspondence list. -/
def pairsOf (l : List PyElem) : List (Nat × Nat) :=
  l.filterMap fun e =>
    match e with
    | PyElem.pair p => some p
    | PyElem.int _ => none

/-- A well-formed correspondence list as produced by the matcher: every
element is an index pair. -/
def WFMatching (s : PairSample) : Prop :=
  ∀ e ∈ s.matching_inds, ∃ p, e = PyElem.pair p

/-- The empty batch (all accumulators empty). -/
def emptyBatch : Batch :=
  ⟨[], [], [], [], [], [], [], [], []⟩

/-- The collator loop body (lines 59-101): per sample, tag the voxel
coordinates with the batch id, extend an empty correspondence list in place
with two zero scalars, offset the correspondence rows by the running point
totals, record the per-sample sizes, and advance the offsets.  The second
component is the sample list as left behind by the loop (the in-place
`matching_inds[batch_id].extend([0, 0])` mutation of line 83). -/
def collateAux (bid : Nat) (off : Nat × Nat) :
    List PairSample → Batch × List PairSample
  | [] => (emptyBatch, [])
  | s :: rest =>
      let N0 := s.coords0.length
      let N1 := s.coords1.length
      let m := if s.matching_inds = []
        then s.matching_inds ++ [PyElem.int 0, PyElem.int 0]
        else s.matching_inds
      let rows := npBroadcastAdd m off
      let r := collateAux (bid + 1) (off.1 + N0, off.2 + N1) rest
      (⟨s.xyz0 ++ r.1.pcd0,
        s.xyz1 ++ r.1.pcd1,
        s.coords0.map (fun c => (bid, c)) ++ r.1.sinput0_C,
        s.feats0 ++ r.1.sinput0_F,
        s.coords1.map (fun c => (bid, c)) ++ r.1.sinput1_C,
        s.feats1 ++ r.1.sinput1_F,
        rows ++ r.1.correspondences,
        s.trans :: r.1.T_gt,
        (N0, N1) :: r.1.len_batch⟩,
       { s with matching_inds := m } :: r.2)

/-- Shallow embedding of `default_collate_pair_fn` (lines 52-112).  Returns
the batch together with the caller's sample list as mutated by the loop. -/
def default_collate_pair_fn (samples : List PairSample) :
    Batch × List PairSample :=
  collateAux 0 (0, 0) samples

/-- Sum of cloud-0 point counts of samples 0..k-1. -/
def offsetsA (samples : List PairSample) (k : Nat) : Nat :=
  ((samples.take k).map fun s => s.coords0.length).sum

/-- Sum of cloud-1 point counts of samples 0..k-1. -/
def offsetsB (samples : List PairSample) (k : Nat) : Nat :=
  ((samples.take k).map fun s => s.coords1.length).sum

/-- The raw rows of one sample after the empty-list substitution: the
sample's own pairs, or the single sentinel pair (0, 0) when empty. -/
def rawRows (s : PairSample) : List (Nat × Nat) :=
  if s.matching_inds = [] then [(0, 0)] else pairsOf s.matching_inds

/-- The correspondence rows contributed by sample k to the batch. -/
def sampleRows (samples : List PairSample) (k : Nat) : List (Nat × Nat) :=
  (rawRows (samples.getD k default)).map fun p =>
    (p.1 + offsetsA samples k, p.2 + offsetsB samples k)

lemma npBroadcastAdd_sentinel (off : Nat × Nat) :
    npBroadcastAdd [PyElem.int 0, PyElem.int 0] off = [(off.1, off.2)] := by
  simp [npBroadcastAdd]

lemma npBroadcastAdd_of_pairs (l : List PyElem) (off : Nat × Nat)
    (hwf : ∀ e ∈ l, ∃ p, e = PyElem.pair p) :
    npBroadcastAdd l off = (pairsOf l).map fun p => (p.1 + off.1, p.2 + off.2) := by
  unfold npBroadcastAdd
  split
  · rename_i a b
    obtain ⟨p, hp⟩ := hwf (PyElem.int a) (List.mem_cons_self _ _)
    exact PyElem.noConfusion hp
  · rw [pairsOf, List.map_filterMap]
    congr 1
    funext e
    cases e <;> rfl

lemma collateAux_corr (samples : List PairSample)
    (hwf : ∀ s ∈ samples, WFMatching s) :
    ∀ bid a b, (collateAux bid (a, b) samples).1.correspondences =
      (List.range samples.length).flatMap fun k =>
        (rawRows (samples.getD k default)).map fun p =>
          (p.1 + (a + offsetsA samples k), p.2 + (b + offsetsB samples k)) := by
  induction samples with
  | nil => intro bid a b; rfl
  | cons s rest ih =>
    intro bid a b
    have hs : WFMatching s := hwf s (List.mem_cons_self _ _)
    have hrest : ∀ s' ∈ rest, WFMatching s' :=
      fun s' h' => hwf s' (List.mem_cons_of_mem _ h')
    have lhs_eq : (collateAux bid (a, b) (s :: rest)).1.correspondences =
        npBroadcastAdd (if s.matching_inds = []
            then s.matching_inds ++ [PyElem.int 0, PyElem.int 0]
            else s.matching_inds) (a, b) ++
          (collateAux (bid + 1) (a + s.coords0.length, b + s.coords1.length)
            rest).1.correspondences := rfl
    rw [lhs_eq, ih hrest (bid + 1) (a + s.coords0.length) (b + s.coords1.length)]
    rw [List.length_cons, List.range_succ_eq_map, List.flatMap_cons, List.flatMap_map]
    congr 1
    · by_cases hemp : s.matching_inds = []
      · rw [if_pos hemp, hemp, List.nil_append, npBroadcastAdd_sentinel]
        simp [rawRows, hemp, offsetsA, offsetsB]
      · rw [if_neg hemp, npBroadcastAdd_of_pairs _ _ hs]
        simp [rawRows, hemp, offsetsA, offsetsB]
    · congr 1
      funext k
      have hget : (s :: rest).getD (k + 1) default = rest.getD k default := by
        simp [List.getD]
      have hoffA : offsetsA (s :: rest) (k + 1) =
          s.coords0.length + offsetsA rest k := by
        simp [offsetsA, List.take_succ_cons]
      have hoffB : offsetsB (s :: rest) (k + 1) =
          s.coords1.length + offsetsB rest k := by
        simp [offsetsB, List.take_succ_cons]
      simp only [Function.comp_apply, Nat.succ_eq_add_one, hget, hoffA, hoffB,
        Nat.add_assoc]

lemma collateAux_len_batch (samples : List PairSample) :
    ∀ bid a b, (collateAux bid (a, b) samples).1.len_batch =
      samples.map fun s => (s.coords0.length, s.coords1.length) := by
  induction samples with
  | nil => intro bid a b; rfl
  | cons s rest ih =>
    intro bid a b
    show (s.coords0.length, s.coords1.length) ::
        (collateAux (bid + 1) (a + s.coords0.length, b + s.coords1.length)
          rest).1.len_batch = _
    rw [ih, List.map_cons]

lemma collateAux_sinput0C_length (samples : List PairSample) :
    ∀ bid a b, (collateAux bid (a, b) samples).1.sinput0_C.length =
      (samples.map fun s => s.coords0.length).sum := by
  induction samples with
  | nil => intro bid a b; rfl
  | cons s rest ih =>
    intro bid a b
    show (s.coords0.map (fun c => (bid, c)) ++
        (collateAux (bid + 1) (a + s.coords0.length, b + s.coords1.length)
          rest).1.sinput0_C).length = _
    rw [List.length_append, List.length_map, ih, List.map_cons, List.sum_cons]

lemma collateAux_sinput1C_length (samples : List PairSample) :
    ∀ bid a b, (collateAux bid (a, b) samples).1.sinput1_C.length =
      (samples.map fun s => s.coords1.length).sum := by
  induction samples with
  | nil => intro bid a b; rfl
  | cons s rest ih =>
    intro bid a b
    show (s.coords1.map (fun c => (bid, c)) ++
        (collateAux (bid + 1) (a + s.coords0.length, b + s.coords1.length)
          rest).1.sinput1_C).length = _
    rw [List.length_append, List.length_map, ih, List.map_cons, List.sum_cons]

lemma collateAux_mutated (samples : List PairSample) :
    ∀ bid a b, (collateAux bid (a, b) samples).2 =
      samples.map fun s => if s.matching_inds = []
        then { s with matching_inds :=
                s.matching_inds ++ [PyElem.int 0, PyElem.int 0] }
        else s := by
  induction samples with
  | nil => intro bid a b; rfl
  | cons s rest ih =>
    intro bid a b
    show { s with matching_inds := if s.matching_inds = []
            then s.matching_inds ++ [PyElem.int 0, PyElem.int 0]
            else s.matching_inds } ::
        (collateAux (bid + 1) (a + s.coords0.length, b + s.coords1.length)
          rest).2 = _
    rw [ih, List.map_cons]
    congr 1
    by_cases hemp : s.matching_inds = [] <;> simp [hemp]

lemma flatMap_congr_mem (l : List α) (f g : α → List β)
    (h : ∀ a ∈ l, f a = g a) : l.flatMap f = l.flatMap g := by
  induction l with
  | nil => rfl
  | cons x xs ih =>
    rw [List.flatMap_cons, List.flatMap_cons, h x (List.mem_cons_self _ _),
      ih fun a ha => h a (List.mem_cons_of_mem _ ha)]

lemma getD_mem_of_lt (samples : List PairSample) (k : Nat)
    (hk : k < samples.length) : samples.getD k default ∈ samples := by
  rw [List.getD_eq_getElem?_getD, List.getElem?_eq_getElem hk]
  exact List.getElem_mem _

/-- Claim C2: every sample whose correspondence list is empty has the
single pair (0, 0) substituted before offsetting, so it contributes exactly
one correspondence row, equal to the pair of prior cloud-0 and cloud-1
count sums; hence every sample contributes at least one row. -/
theorem collate_empty_sentinel_c2 (samples : List PairSample)
    (hwf : ∀ s ∈ samples, WFMatching s) :
    (default_collate_pair_fn samples).1.correspondences =
      (List.range samples.length).flatMap (sampleRows samples)
    ∧ (∀ k, k < samples.length → (samples.getD k default).matching_inds = [] →
        sampleRows samples k = [(offsetsA samples k, offsetsB samples k)])
    ∧ ∀ k, k < samples.length → sampleRows samples k ≠ [] := by
  refine ⟨?_, ?_, ?_⟩
  · rw [default_collate_pair_fn, collateAux_corr samples hwf 0 0 0]
    simp only [Nat.zero_add]
    apply flatMap_congr_mem
    intro k _
    rfl
  · intro k hk hemp
    unfold sampleRows rawRows
    rw [if_pos hemp]
    simp
  · intro k hk
    have hmem := getD_mem_of_lt samples k hk
    have hswf := hwf _ hmem
    unfold sampleRows rawRows
    by_cases hemp : (samples.getD k default).matching_inds = []
    · rw [if_pos hemp]
      simp
    · rw [if_neg hemp]
      cases hm : (samples.getD k default).matching_inds with
      | nil => exact absurd hm hemp
      | cons e es =>
        obtain ⟨p, hp⟩ := hswf e (by rw [hm]; exact List.mem_cons_self _ _)
        subst hp
        simp [pairsOf]

/-- The concrete sample used to exercise the empty-correspondence path:
one point per cloud, empty correspondence list. -/
def cexSample : PairSample := ⟨[d0], [d0], [d0], [d0], [d0], [d0], [], 1⟩

/-- Witness for C2 at a concrete batch containing an empty-correspondence
sample. -/
theorem collate_empty_sentinel_c2_witness :
    (∀ s ∈ [cexSample], WFMatching s) ∧
      (default_collate_pair_fn [cexSample]).1.correspondences =
        (List.range ([cexSample] : List PairSample).length).flatMap
          (sampleRows [cexSample]) := by
  have hwf : ∀ s ∈ [cexSample], WFMatching s := by
    intro s hs e he
    rw [List.mem_singleton] at hs
    subst hs
    exact absurd he (by simp [cexSample])
  exact ⟨hwf, (collate_empty_sentinel_c2 [cexSample] hwf).1⟩

/-- Claim C1 (amended): provided every sample's correspondence list is
nonempty, the collated correspondence list is the concatenation over
samples of that sample's raw pairs offset columnwise by the sums of prior
cloud-0 and cloud-1 point counts; the returned len_batch records exactly
the per-sample (countA, countB) in order, and summing those sizes recovers
the lengths of the concatenated coordinate arrays exactly. -/
theorem collate_offsets_c1 (samples : List PairSample)
    (hwf : ∀ s ∈ samples, WFMatching s)
    (hne : ∀ s ∈ samples, s.matching_inds ≠ []) :
    (default_collate_pair_fn samples).1.correspondences =
      (List.range samples.length).flatMap (fun k =>
        (pairsOf ((samples.getD k default).matching_inds)).map fun p =>
          (p.1 + offsetsA samples k, p.2 + offsetsB samples k))
    ∧ (default_collate_pair_fn samples).1.len_batch =
        samples.map (fun s => (s.coords0.length, s.coords1.length))
    ∧ (((default_collate_pair_fn samples).1.len_batch).map Prod.fst).sum =
        (default_collate_pair_fn samples).1.sinput0_C.length
    ∧ (((default_collate_pair_fn samples).1.len_batch).map Prod.snd).sum =
        (default_collate_pair_fn samples).1.sinput1_C.length := by
  refine ⟨?_, ?_, ?_, ?_⟩
  · rw [default_collate_pair_fn, collateAux_corr samples hwf 0 0 0]
    simp only [Nat.zero_add]
    apply flatMap_congr_mem
    intro k hk
    rw [rawRows, if_neg (hne _ (getD_mem_of_lt samples k (List.mem_range.1 hk)))]
  · exact collateAux_len_batch samples 0 0 0
  · rw [default_collate_pair_fn, collateAux_len_batch samples 0 0 0,
      collateAux_sinput0C_length samples 0 0 0, List.map_map]
    rfl
  · rw [default_collate_pair_fn, collateAux_len_batch samples 0 0 0,
      collateAux_sinput1C_length samples 0 0 0, List.map_map]
    rfl

/-- Counterexample to C1 as stated: a batch containing a sample with an
empty correspondence list contributes the substituted sentinel row, not its
(empty) raw pair list offset. -/
theorem collate_offsets_c1_cex :
    (default_collate_pair_fn [cexSample]).1.correspondences ≠
      (List.range ([cexSample] : List PairSample).length).flatMap (fun k =>
        (pairsOf (([cexSample].getD k default).matching_inds)).map fun p =>
          (p.1 + offsetsA [cexSample] k, p.2 + offsetsB [cexSample] k)) := by
  intro h
  have hl : (default_collate_pair_fn [cexSample]).1.correspondences =
      [(0, 0)] := rfl
  rw [hl] at h
  have hr : (List.range ([cexSample] : List PairSample).length).flatMap (fun k =>
      (pairsOf (([cexSample].getD k default).matching_inds)).map fun p =>
        (p.1 + offsetsA [cexSample] k, p.2 + offsetsB [cexSample] k)) = [] := rfl
  rw [hr] at h
  exact List.noConfusion h

/-- The concrete sample used to exercise the nonempty-correspondence path. -/
def okSample : PairSample :=
  ⟨[d0], [d0], [d0], [d0], [d0], [d0], [PyElem.pair (0, 0)], 1⟩

/-- Witness for the amended C1 at a concrete two-sample batch. -/
theorem collate_offsets_c1_witness :
    (∀ s ∈ [okSample, okSample], WFMatching s) ∧
    (∀ s ∈ [okSample, okSample], s.matching_inds ≠ []) ∧
      (default_collate_pair_fn [okSample, okSample]).1.len_batch =
        [okSample, okSample].map
          (fun s => (s.coords0.length, s.coords1.length)) := by
  have hwf : ∀ s ∈ [okSample, okSample], WFMatching s := by
    intro s hs e he
    rcases List.mem_cons.1 hs with rfl | hs'
    · rw [show okSample.matching_inds = [PyElem.pair (0, 0)] from rfl] at he
      exact ⟨(0, 0), List.mem_singleton.1 he ▸ rfl⟩
    · rw [List.mem_singleton] at hs'
      subst hs'
      rw [show okSample.matching_inds = [PyElem.pair (0, 0)] from rfl] at he
      exact ⟨(0, 0), List.mem_singleton.1 he ▸ rfl⟩
  have hne : ∀ s ∈ [okSample, okSample], s.matching_inds ≠ [] := by
    intro s hs
    rcases List.mem_cons.1 hs with rfl | hs'
    · exact by simp [okSample]
    · rw [List.mem_singleton] at hs'
      subst hs'
      exact by simp [okSample]
  exact ⟨hwf, hne, (collate_offsets_c1 [okSample, okSample] hwf hne).2.1⟩

/-- Claim C10: the collator mutates its caller-owned input in place — every
sample whose correspondence list is empty has that list extended with two
zero scalar elements (so it is no longer empty afterwards), while samples
with nonempty lists, and every other field of every sample, are left
unchanged. -/
theorem collate_mutation_c10 (samples : List PairSample) :
    (default_collate_pair_fn samples).2 =
      samples.map (fun s => if s.matching_inds = []
        then { s with matching_inds :=
                s.matching_inds ++ [PyElem.int 0, PyElem.int 0] }
        else s)
    ∧ (∀ s' ∈ (default_collate_pair_fn samples).2, s'.matching_inds ≠ [])
    ∧ (default_collate_pair_fn samples).2.map
        (fun s => (s.xyz0, s.xyz1, s.coords0, s.coords1, s.feats0, s.feats1,
          s.trans)) =
      samples.map (fun s => (s.xyz0, s.xyz1, s.coords0, s.coords1, s.feats0,
        s.feats1, s.trans)) := by
  have hmap := collateAux_mutated samples 0 0 0
  refine ⟨hmap, ?_, ?_⟩
  · intro s' hs'
    rw [default_collate_pair_fn, hmap] at hs'
    obtain ⟨s, _, rfl⟩ := List.mem_map.1 hs'
    by_cases hemp : s.matching_inds = [] <;> simp [hemp]
  · rw [default_collate_pair_fn, hmap, List.map_map]
    apply List.map_congr_left
    intro s _
    by_cases hemp : s.matching_inds = [] <;> simp [hemp]
